import Mathlib

/-!
Verification of the Union-Find (Disjoint Set Union) core of this repository
(`union_find_example.go`) together with its graph-algorithm consumers
(`DetectCycle`, `KruskalMST`).

The Go code is shallowly embedded: the mutable `UnionFind` struct becomes a
Lean structure holding the `parent` and `rank` slices (as `List Nat`) and the
`count` field; every mutating method becomes a function returning the updated
structure alongside its Go return value.  Go's recursive `Find` (which
terminates because rank strictly increases along parent chains) is embedded
with an explicit fuel argument set to `n`; we prove (`UnionFind.FindAux_congr`)
that on well-formed states any fuel of at least `n` computes the same result,
so the fueled function agrees with the Go recursion wherever the latter
terminates.
-/

/-- Edge represents an edge in a graph (struct `Edge` in the source:
fields `From`, `To`, `Weight`, all Go `int`; `From`/`To` are used as
element indices, `Weight` may be any integer). -/
structure Edge where
  From : Nat
  To : Nat
  Weight : Int
deriving DecidableEq, Repr

/-- UnionFind represents the Union-Find data structure of the source:
`parent` (parent[i] = parent of element i), `rank` (approximate depth of the
tree rooted at i) and `count` (number of disjoint sets). -/
structure UnionFind where
  parent : List Nat
  rank : List Nat
  count : Nat
deriving DecidableEq, Repr

/-- Size of the element universe: the length of the `parent` slice
(the `n` the structure was constructed with). -/
def UnionFind.size (uf : UnionFind) : Nat := uf.parent.length

/-- Reading `uf.parent[x]`.  In the Go code this is a plain slice index
(panicking out of range); all verified uses are in range, and out of range we
default to `x` itself so that the function is total. -/
def UnionFind.parentAt (uf : UnionFind) (x : Nat) : Nat := uf.parent.getD x x

/-- Reading `uf.rank[x]`; out of range defaults to 0 (all verified uses are
in range). -/
def UnionFind.rankAt (uf : UnionFind) (x : Nat) : Nat := uf.rank.getD x 0

/-- Writing `uf.parent[x] = r`. -/
def UnionFind.setParent (uf : UnionFind) (x r : Nat) : UnionFind :=
  { uf with parent := uf.parent.set x r }

/-- NewUnionFind creates a new Union-Find data structure with n elements:
`parent[i] = i`, `rank[i] = 0`, `count = n`. -/
def NewUnionFind (n : Nat) : UnionFind :=
  { parent := List.range n, rank := List.replicate n 0, count := n }

/-- Fueled embedding of the recursive Go method `Find` with path compression:
if `parent[x] != x` then `parent[x] = Find(parent[x])`; return `parent[x]`.
The fuel only bounds the recursion depth; `n` is proved sufficient on
well-formed states. -/
def UnionFind.FindAux : Nat → UnionFind → Nat → UnionFind × Nat
  | 0, uf, x => (uf, x)
  | fuel + 1, uf, x =>
    if uf.parentAt x = x then (uf, x)
    else
      let res := UnionFind.FindAux fuel uf (uf.parentAt x)
      (res.1.setParent x res.2, res.2)

/-- Find returns the root of the set containing x (with path compression),
together with the mutated structure. -/
def UnionFind.Find (uf : UnionFind) (x : Nat) : UnionFind × Nat :=
  UnionFind.FindAux uf.size uf x

/-- Union merges the sets containing x and y using union by rank, returning
the mutated structure and the Go boolean result (`false` when x and y were
already in the same set). -/
def UnionFind.Union (uf : UnionFind) (x y : Nat) : UnionFind × Bool :=
  let fx := uf.Find x
  let fy := fx.1.Find y
  let uf2 := fy.1
  let rootX := fx.2
  let rootY := fy.2
  if rootX = rootY then (uf2, false)
  else if uf2.rankAt rootX < uf2.rankAt rootY then
    ({ uf2 with parent := uf2.parent.set rootX rootY, count := uf2.count - 1 }, true)
  else if uf2.rankAt rootY < uf2.rankAt rootX then
    ({ uf2 with parent := uf2.parent.set rootY rootX, count := uf2.count - 1 }, true)
  else
    ({ uf2 with parent := uf2.parent.set rootY rootX,
                rank := uf2.rank.set rootX (uf2.rankAt rootX + 1),
                count := uf2.count - 1 }, true)

/-- Connected checks if x and y are in the same set:
`uf.Find(x) == uf.Find(y)` (both Finds mutate via path compression). -/
def UnionFind.Connected (uf : UnionFind) (x y : Nat) : UnionFind × Bool :=
  let fx := uf.Find x
  let fy := fx.1.Find y
  (fy.1, fx.2 == fy.2)

/-- Count returns the number of disjoint sets. -/
def UnionFind.Count (uf : UnionFind) : Nat := uf.count

/-- Pure (non-mutating) root computation: follow parent pointers until a
self-loop, with fuel.  This is the mathematical "representative" function the
proofs relate `Find` to. -/
def UnionFind.rootAux : Nat → UnionFind → Nat → Nat
  | 0, _, x => x
  | fuel + 1, uf, x =>
    if uf.parentAt x = x then x else UnionFind.rootAux fuel uf (uf.parentAt x)

/-- Pure root of x with the proven-sufficient fuel `n`. -/
def UnionFind.rootOf (uf : UnionFind) (x : Nat) : Nat :=
  UnionFind.rootAux uf.size uf x

/-- Semantic equivalence of two elements: same pure root. -/
def UnionFind.eqv (uf : UnionFind) (x y : Nat) : Prop :=
  uf.rootOf x = uf.rootOf y

/-- Iterating the parent pointer k times from x (used to state that parent
chains reach a root). -/
def UnionFind.parentIter (uf : UnionFind) : Nat → Nat → Nat
  | 0, x => x
  | k + 1, x => uf.parentIter k (uf.parentAt x)

/-- Well-formedness invariant of a Union-Find state: the two slices have equal
length, parent pointers stay in range, rank strictly increases along
non-trivial parent links, every rank is bounded by `n - count`, and `count`
equals the number of roots. -/
structure UnionFind.WF (uf : UnionFind) : Prop where
  rank_length : uf.rank.length = uf.parent.length
  parent_lt : ∀ i, i < uf.size → uf.parentAt i < uf.size
  rank_increase : ∀ i, i < uf.size → uf.parentAt i ≠ i → uf.rankAt i < uf.rankAt (uf.parentAt i)
  rank_count : ∀ i, i < uf.size → uf.rankAt i + uf.count ≤ uf.size
  count_roots : uf.count = ((Finset.range uf.size).filter (fun i => uf.parentAt i = i)).card

/-! Basic lemmas about slice reads and writes. -/

theorem UnionFind.size_setParent (uf : UnionFind) (x r : Nat) :
    (uf.setParent x r).size = uf.size := by
  simp [UnionFind.setParent, UnionFind.size]

theorem UnionFind.rank_setParent (uf : UnionFind) (x r : Nat) :
    (uf.setParent x r).rank = uf.rank := rfl

theorem UnionFind.count_setParent (uf : UnionFind) (x r : Nat) :
    (uf.setParent x r).count = uf.count := rfl

theorem UnionFind.rankAt_setParent (uf : UnionFind) (x r i : Nat) :
    (uf.setParent x r).rankAt i = uf.rankAt i := rfl

theorem UnionFind.parentAt_setParent (uf : UnionFind) (x r i : Nat) (hx : x < uf.size) :
    (uf.setParent x r).parentAt i = if i = x then r else uf.parentAt i := by
  unfold UnionFind.parentAt UnionFind.setParent
  by_cases h : i = x
  · subst h
    simp [List.getD_eq_getElem?_getD, List.getElem?_set,
      show i < uf.parent.length from hx]
  · simp [List.getD_eq_getElem?_getD, List.getElem?_set, Ne.symm h, h]

theorem UnionFind.parentAt_oob (uf : UnionFind) (i : Nat) (h : uf.size ≤ i) :
    uf.parentAt i = i := by
  unfold UnionFind.parentAt
  simp [List.getD_eq_getElem?_getD, List.getElem?_eq_none (l := uf.parent) h]

theorem UnionFind.rankAt_eq_of_rank_eq {uf uf' : UnionFind} (h : uf.rank = uf'.rank) (i : Nat) :
    uf.rankAt i = uf'.rankAt i := by
  unfold UnionFind.rankAt; rw [h]

/-! Facts about the freshly constructed structure. -/

theorem NewUnionFind_size (n : Nat) : (NewUnionFind n).size = n := by
  simp [NewUnionFind, UnionFind.size]

theorem NewUnionFind_parentAt (n i : Nat) : (NewUnionFind n).parentAt i = i := by
  unfold NewUnionFind UnionFind.parentAt
  rcases Nat.lt_or_ge i n with h | h
  · simp [List.getD_eq_getElem?_getD, List.getElem?_range h]
  · simp [List.getD_eq_getElem?_getD,
      List.getElem?_eq_none (l := List.range n) (by simpa using h)]

theorem NewUnionFind_rankAt (n i : Nat) : (NewUnionFind n).rankAt i = 0 := by
  unfold NewUnionFind UnionFind.rankAt
  rcases Nat.lt_or_ge i n with h | h
  · simp [List.getD_eq_getElem?_getD, List.getElem?_replicate, h]
  · simp [List.getD_eq_getElem?_getD,
      List.getElem?_eq_none (l := List.replicate n (0:Nat)) (by simpa using h)]

theorem NewUnionFind_count (n : Nat) : (NewUnionFind n).count = n := rfl

theorem NewUnionFind_WF (n : Nat) : (NewUnionFind n).WF := by
  constructor
  · simp [NewUnionFind]
  · intro i hi; rw [NewUnionFind_parentAt]; exact hi
  · intro i hi hne; exact absurd (NewUnionFind_parentAt n i) hne
  · intro i hi; rw [NewUnionFind_rankAt, NewUnionFind_count, NewUnionFind_size]; omega
  · rw [NewUnionFind_count]
    have : Finset.filter (fun i => (NewUnionFind n).parentAt i = i)
        (Finset.range (NewUnionFind n).size) = Finset.range n := by
      rw [NewUnionFind_size]
      apply Finset.filter_true_of_mem
      intro i _; exact NewUnionFind_parentAt n i
    rw [this, Finset.card_range]

/-! Existence of a root and rank bounds on well-formed states. -/

theorem UnionFind.exists_root (uf : UnionFind) (wf : uf.WF) (h : 0 < uf.size) :
    ∃ m, m < uf.size ∧ uf.parentAt m = m := by
  obtain ⟨m, hm, hmax⟩ := Finset.exists_max_image (Finset.range uf.size)
    (fun i => uf.rankAt i) (Finset.nonempty_range_iff.mpr (by omega))
  rw [Finset.mem_range] at hm
  refine ⟨m, hm, ?_⟩
  by_contra hne
  have hlt := wf.rank_increase m hm hne
  have hmem : uf.parentAt m ∈ Finset.range uf.size :=
    Finset.mem_range.mpr (wf.parent_lt m hm)
  exact absurd (hmax _ hmem) (by omega)

theorem UnionFind.count_pos (uf : UnionFind) (wf : uf.WF) (h : 0 < uf.size) :
    0 < uf.count := by
  obtain ⟨m, hm, hroot⟩ := uf.exists_root wf h
  rw [wf.count_roots]
  exact Finset.card_pos.mpr ⟨m, Finset.mem_filter.mpr ⟨Finset.mem_range.mpr hm, hroot⟩⟩

theorem UnionFind.rankAt_lt (uf : UnionFind) (wf : uf.WF) {x : Nat} (hx : x < uf.size) :
    uf.rankAt x < uf.size := by
  have h1 := wf.rank_count x hx
  have h2 := uf.count_pos wf (Nat.lt_of_le_of_lt (Nat.zero_le x) hx)
  omega

/-! Fuel irrelevance and unfolding laws for the pure root function. -/

theorem UnionFind.rootAux_congr (uf : UnionFind) (wf : uf.WF) :
    ∀ fuel fuel' x, x < uf.size → uf.size ≤ uf.rankAt x + fuel →
      uf.size ≤ uf.rankAt x + fuel' →
      UnionFind.rootAux fuel uf x = UnionFind.rootAux fuel' uf x := by
  intro fuel
  induction fuel with
  | zero =>
    intro fuel' x hx hf _
    exact absurd (uf.rankAt_lt wf hx) (by omega)
  | succ fuel ih =>
    intro fuel' x hx hf hf'
    cases fuel' with
    | zero => exact absurd (uf.rankAt_lt wf hx) (by omega)
    | succ fuel' =>
      show UnionFind.rootAux (fuel + 1) uf x = UnionFind.rootAux (fuel' + 1) uf x
      unfold UnionFind.rootAux
      by_cases hroot : uf.parentAt x = x
      · simp [hroot]
      · simp only [hroot, if_neg]
        have hp := wf.parent_lt x hx
        have hr := wf.rank_increase x hx hroot
        exact ih fuel' (uf.parentAt x) hp (by omega) (by omega)

theorem UnionFind.rootOf_eq_self (uf : UnionFind) {x : Nat} (h : uf.parentAt x = x) :
    uf.rootOf x = x := by
  unfold UnionFind.rootOf
  cases hs : uf.size with
  | zero => rfl
  | succ m => unfold UnionFind.rootAux; simp [h]

theorem UnionFind.rootOf_oob (uf : UnionFind) {i : Nat} (h : uf.size ≤ i) :
    uf.rootOf i = i :=
  uf.rootOf_eq_self (uf.parentAt_oob i h)

theorem UnionFind.rootOf_eq_step (uf : UnionFind) (wf : uf.WF) {x : Nat}
    (hx : x < uf.size) (h : uf.parentAt x ≠ x) :
    uf.rootOf x = uf.rootOf (uf.parentAt x) := by
  have hpos : 0 < uf.size := Nat.lt_of_le_of_lt (Nat.zero_le x) hx
  have hp := wf.parent_lt x hx
  have hr := wf.rank_increase x hx h
  unfold UnionFind.rootOf
  obtain ⟨m, hm⟩ : ∃ m, uf.size = m + 1 := ⟨uf.size - 1, by omega⟩
  rw [hm]
  unfold UnionFind.rootAux
  simp only [h, if_neg]
  exact uf.rootAux_congr wf m (m + 1) (uf.parentAt x) (hm ▸ hp)
    (by have := uf.rankAt_lt wf hx; omega) (by omega)

/-- Gap-style induction principle: to prove P at every in-range element it
suffices to prove it at roots and propagate it down from parents, the measure
being the distance from the rank to `n`. -/
theorem UnionFind.rank_gap_induction (uf : UnionFind) (wf : uf.WF) (P : Nat → Prop)
    (hroot : ∀ x, x < uf.size → uf.parentAt x = x → P x)
    (hstep : ∀ x, x < uf.size → uf.parentAt x ≠ x → P (uf.parentAt x) → P x) :
    ∀ x, x < uf.size → P x := by
  have aux : ∀ gap x, x < uf.size → uf.size ≤ uf.rankAt x + gap → P x := by
    intro gap
    induction gap with
    | zero => intro x hx hgap; exact absurd (uf.rankAt_lt wf hx) (by omega)
    | succ gap ih =>
      intro x hx hgap
      by_cases h : uf.parentAt x = x
      · exact hroot x hx h
      · have hp := wf.parent_lt x hx
        have hr := wf.rank_increase x hx h
        exact hstep x hx h (ih (uf.parentAt x) hp (by omega))
  intro x hx
  exact aux uf.size x hx (by have := uf.rankAt_lt wf hx; omega)

theorem UnionFind.parentAt_rootOf (uf : UnionFind) (wf : uf.WF) {x : Nat}
    (hx : x < uf.size) : uf.parentAt (uf.rootOf x) = uf.rootOf x := by
  refine uf.rank_gap_induction wf (fun x => uf.parentAt (uf.rootOf x) = uf.rootOf x)
    ?_ ?_ x hx
  · intro z hz hroot; rw [uf.rootOf_eq_self hroot]; exact hroot
  · intro z hz hne ih; rw [uf.rootOf_eq_step wf hz hne]; exact ih

theorem UnionFind.rootOf_lt (uf : UnionFind) (wf : uf.WF) {x : Nat}
    (hx : x < uf.size) : uf.rootOf x < uf.size := by
  refine uf.rank_gap_induction wf (fun x => uf.rootOf x < uf.size) ?_ ?_ x hx
  · intro z hz hroot; rw [uf.rootOf_eq_self hroot]; exact hz
  · intro z hz hne ih; rw [uf.rootOf_eq_step wf hz hne]; exact ih

theorem UnionFind.rankAt_le_rootOf (uf : UnionFind) (wf : uf.WF) {x : Nat}
    (hx : x < uf.size) : uf.rankAt x ≤ uf.rankAt (uf.rootOf x) := by
  refine uf.rank_gap_induction wf
    (fun x => uf.rankAt x ≤ uf.rankAt (uf.rootOf x)) ?_ ?_ x hx
  · intro z hz hroot; rw [uf.rootOf_eq_self hroot]
  · intro z hz hne ih
    rw [uf.rootOf_eq_step wf hz hne]
    exact Nat.le_trans (Nat.le_of_lt (wf.rank_increase z hz hne)) ih

theorem UnionFind.rankAt_lt_rootOf (uf : UnionFind) (wf : uf.WF) {x : Nat}
    (hx : x < uf.size) (hne : uf.parentAt x ≠ x) :
    uf.rankAt x < uf.rankAt (uf.rootOf x) := by
  rw [uf.rootOf_eq_step wf hx hne]
  exact Nat.lt_of_lt_of_le (wf.rank_increase x hx hne)
    (uf.rankAt_le_rootOf wf (wf.parent_lt x hx))

theorem UnionFind.rootOf_ne (uf : UnionFind) (wf : uf.WF) {x : Nat}
    (hx : x < uf.size) (hne : uf.parentAt x ≠ x) : uf.rootOf x ≠ x := by
  intro hcontra
  have := uf.rankAt_lt_rootOf wf hx hne
  rw [hcontra] at this
  omega

/-- Relinking an in-range non-root x directly to its root r (path compression)
does not change the pure root of any element. -/
theorem UnionFind.rootOf_setParent_root (uf : UnionFind) (wf : uf.WF) {x r : Nat}
    (hx : x < uf.size) (hne : uf.parentAt x ≠ x) (hr : r = uf.rootOf x)
    (wf2 : (uf.setParent x r).WF) :
    ∀ i, (uf.setParent x r).rootOf i = uf.rootOf i := by
  have hsize : (uf.setParent x r).size = uf.size := uf.size_setParent x r
  have hrlt : r < uf.size := hr ▸ uf.rootOf_lt wf hx
  have hrroot : uf.parentAt r = r := hr ▸ uf.parentAt_rootOf wf hx
  have hrne : r ≠ x := hr ▸ uf.rootOf_ne wf hx hne
  have hpat : ∀ i, (uf.setParent x r).parentAt i = if i = x then r else uf.parentAt i :=
    fun i => uf.parentAt_setParent x r i hx
  have hs2r : (uf.setParent x r).parentAt r = r := by rw [hpat r, if_neg hrne]; exact hrroot
  intro i
  rcases Nat.lt_or_ge i uf.size with hi | hi
  · refine uf.rank_gap_induction wf
      (fun z => (uf.setParent x r).rootOf z = uf.rootOf z) ?_ ?_ i hi
    · intro z hz hzroot
      have hzx : z ≠ x := fun h => hne (h ▸ hzroot)
      have : (uf.setParent x r).parentAt z = z := by rw [hpat z, if_neg hzx]; exact hzroot
      rw [(uf.setParent x r).rootOf_eq_self this, uf.rootOf_eq_self hzroot]
    · intro z hz hzne ih
      by_cases hzx : z = x
      · have hpz : (uf.setParent x r).parentAt z = r := by rw [hpat z, if_pos hzx]
        have hstep : (uf.setParent x r).rootOf z = (uf.setParent x r).rootOf r := by
          rw [(uf.setParent x r).rootOf_eq_step wf2 (by omega)
            (by rw [hpz, hzx]; exact hrne), hpz]
        rw [hstep, (uf.setParent x r).rootOf_eq_self hs2r, hzx, ← hr]
      · have hpz : (uf.setParent x r).parentAt z = uf.parentAt z := by
          rw [hpat z, if_neg hzx]
        rw [(uf.setParent x r).rootOf_eq_step wf2 (by omega) (by rw [hpz]; exact hzne),
          hpz, ih, ← uf.rootOf_eq_step wf hz hzne]
  · rw [(uf.setParent x r).rootOf_oob (by omega), uf.rootOf_oob hi]

/-- Specification bundle for a Find call on a well-formed state: the returned
value is the pure root, and the mutated state is well-formed with the same
size, ranks, count, pure roots, and root set. -/
structure UnionFind.FindSpec (uf ufr : UnionFind) (x r : Nat) : Prop where
  root_eq : r = uf.rootOf x
  wf : ufr.WF
  size_eq : ufr.size = uf.size
  rank_eq : ufr.rank = uf.rank
  count_eq : ufr.count = uf.count
  rootOf_eq : ∀ i, ufr.rootOf i = uf.rootOf i
  isRoot_iff : ∀ i, (ufr.parentAt i = i ↔ uf.parentAt i = i)

theorem UnionFind.FindAux_spec (uf : UnionFind) (wf : uf.WF) :
    ∀ fuel x, x < uf.size → uf.size ≤ uf.rankAt x + fuel →
      UnionFind.FindSpec uf (UnionFind.FindAux fuel uf x).1 x (UnionFind.FindAux fuel uf x).2 := by
  intro fuel
  induction fuel with
  | zero => intro x hx hgap; exact absurd (uf.rankAt_lt wf hx) (by omega)
  | succ fuel ih =>
    intro x hx hgap
    by_cases hroot : uf.parentAt x = x
    · have hres : UnionFind.FindAux (fuel + 1) uf x = (uf, x) := by
        unfold UnionFind.FindAux; simp [hroot]
      rw [hres]
      exact ⟨(uf.rootOf_eq_self hroot).symm, wf, rfl, rfl, rfl, fun _ => rfl, fun _ => Iff.rfl⟩
    · have hp : uf.parentAt x < uf.size := wf.parent_lt x hx
      have hrk := wf.rank_increase x hx hroot
      have spec1 := ih (uf.parentAt x) hp (by omega)
      set res := UnionFind.FindAux fuel uf (uf.parentAt x) with hres_def
      have hres : UnionFind.FindAux (fuel + 1) uf x = (res.1.setParent x res.2, res.2) := by
        conv_lhs => unfold UnionFind.FindAux
        simp [hroot]
      rw [hres]
      show UnionFind.FindSpec uf (res.1.setParent x res.2) x res.2
      obtain ⟨root_eq1, wf1, size1, rank1, count1, rootOf1, isRoot1⟩ := spec1
      have hxlt1 : x < res.1.size := by omega
      have hne1 : res.1.parentAt x ≠ x := fun h => hroot ((isRoot1 x).mp h)
      have hr1 : res.2 = res.1.rootOf x := by
        rw [rootOf1 x, uf.rootOf_eq_step wf hx hroot]; exact root_eq1
      have hrne1 : res.2 ≠ x := hr1 ▸ res.1.rootOf_ne wf1 hxlt1 hne1
      have hpat : ∀ i, (res.1.setParent x res.2).parentAt i =
          if i = x then res.2 else res.1.parentAt i :=
        fun i => res.1.parentAt_setParent x res.2 i hxlt1
      have hsize2 : (res.1.setParent x res.2).size = res.1.size := res.1.size_setParent x res.2
      have hrank2 : (res.1.setParent x res.2).rank = res.1.rank := rfl
      have hrankAt2 : ∀ i, (res.1.setParent x res.2).rankAt i = res.1.rankAt i := fun _ => rfl
      have hisRoot2 : ∀ i, ((res.1.setParent x res.2).parentAt i = i ↔ res.1.parentAt i = i) := by
        intro i
        by_cases hix : i = x
        · subst hix
          rw [hpat i, if_pos rfl]
          exact ⟨fun h => absurd h hrne1, fun h => absurd h hne1⟩
        · rw [hpat i, if_neg hix]
      have wf2 : (res.1.setParent x res.2).WF := by
        constructor
        · show (res.1.setParent x res.2).rank.length = (res.1.setParent x res.2).parent.length
          have : (res.1.setParent x res.2).parent.length = res.1.parent.length :=
            List.length_set res.1.parent x res.2
          rw [hrank2, this]; exact wf1.rank_length
        · intro i hi
          rw [hpat i]
          by_cases hix : i = x
          · rw [if_pos hix]
            have : res.2 < res.1.size := hr1 ▸ res.1.rootOf_lt wf1 hxlt1
            omega
          · rw [if_neg hix]; have := wf1.parent_lt i (by omega); omega
        · intro i hi hnei
          rw [hrankAt2, hrankAt2]
          rw [hpat i] at hnei ⊢
          by_cases hix : i = x
          · subst hix
            rw [if_pos rfl] at hnei ⊢
            have := res.1.rankAt_lt_rootOf wf1 hxlt1 hne1
            rw [← hr1] at this
            exact this
          · rw [if_neg hix] at hnei ⊢
            exact wf1.rank_increase i (by omega) hnei
        · intro i hi
          rw [hrankAt2]
          have := wf1.rank_count i (by omega)
          have hc : (res.1.setParent x res.2).count = res.1.count := rfl
          omega
        · have hc : (res.1.setParent x res.2).count = res.1.count := rfl
          rw [hc, wf1.count_roots]
          congr 1
          rw [show (res.1.setParent x res.2).size = res.1.size from hsize2]
          exact (Finset.filter_congr (fun i _ => hisRoot2 i)).symm
      have hrootOf2 : ∀ i, (res.1.setParent x res.2).rootOf i = res.1.rootOf i :=
        res.1.rootOf_setParent_root wf1 hxlt1 hne1 hr1 wf2
      refine ⟨?_, wf2, ?_, ?_, ?_, ?_, ?_⟩
      · rw [root_eq1, ← uf.rootOf_eq_step wf hx hroot]
      · omega
      · rw [hrank2, rank1]
      · show (res.1.setParent x res.2).count = uf.count
        rw [show (res.1.setParent x res.2).count = res.1.count from rfl, count1]
      · intro i; rw [hrootOf2 i, rootOf1 i]
      · intro i; rw [hisRoot2 i, isRoot1 i]

theorem UnionFind.Find_spec (uf : UnionFind) (wf : uf.WF) {x : Nat} (hx : x < uf.size) :
    UnionFind.FindSpec uf (uf.Find x).1 x (uf.Find x).2 :=
  uf.FindAux_spec wf uf.size x hx (by omega)

/-- Fuel irrelevance for Find: any fuel at least `n` computes the same pair,
so the fueled embedding agrees with Go's unbounded recursion. -/
theorem UnionFind.FindAux_congr (uf : UnionFind) (wf : uf.WF) :
    ∀ fuel fuel' x, x < uf.size → uf.size ≤ uf.rankAt x + fuel →
      uf.size ≤ uf.rankAt x + fuel' →
      UnionFind.FindAux fuel uf x = UnionFind.FindAux fuel' uf x := by
  intro fuel
  induction fuel with
  | zero => intro fuel' x hx hf _; exact absurd (uf.rankAt_lt wf hx) (by omega)
  | succ fuel ih =>
    intro fuel' x hx hf hf'
    cases fuel' with
    | zero => exact absurd (uf.rankAt_lt wf hx) (by omega)
    | succ fuel' =>
      by_cases hroot : uf.parentAt x = x
      · show UnionFind.FindAux (fuel + 1) uf x = UnionFind.FindAux (fuel' + 1) uf x
        unfold UnionFind.FindAux; simp [hroot]
      · have hp := wf.parent_lt x hx
        have hr := wf.rank_increase x hx hroot
        have hrec := ih fuel' (uf.parentAt x) hp (by omega) (by omega)
        show UnionFind.FindAux (fuel + 1) uf x = UnionFind.FindAux (fuel' + 1) uf x
        unfold UnionFind.FindAux
        simp only [hroot, if_neg]
        rw [hrec]

/-! Helper forms for the three mutation branches of Union. -/

/-- State after attaching root ra under root rb (the two pure-parent-update
branches of Union) with the count decrement. -/
def UnionFind.attach (uf : UnionFind) (ra rb : Nat) : UnionFind :=
  { uf with parent := uf.parent.set ra rb, count := uf.count - 1 }

/-- State after attaching root ra under root rb and incrementing rb's rank
(the equal-rank branch of Union) with the count decrement. -/
def UnionFind.attachBump (uf : UnionFind) (ra rb : Nat) : UnionFind :=
  { uf with parent := uf.parent.set ra rb,
            rank := uf.rank.set rb (uf.rankAt rb + 1),
            count := uf.count - 1 }

theorem UnionFind.rankAt_of_rank_set (uf : UnionFind) {s : UnionFind} {x v : Nat}
    (hrk : s.rank = uf.rank.set x v) (hx : x < uf.rank.length) (i : Nat) :
    s.rankAt i = if i = x then v else uf.rankAt i := by
  unfold UnionFind.rankAt
  rw [hrk]
  by_cases h : i = x
  · subst h; simp [List.getD_eq_getElem?_getD, List.getElem?_set, hx]
  · simp [List.getD_eq_getElem?_getD, List.getElem?_set, Ne.symm h, h]

theorem UnionFind.attach_size (uf : UnionFind) (ra rb : Nat) :
    (uf.attach ra rb).size = uf.size := by
  simp [UnionFind.attach, UnionFind.size]

theorem UnionFind.attach_parentAt (uf : UnionFind) {ra : Nat} (rb : Nat) (hra : ra < uf.size) :
    ∀ i, (uf.attach ra rb).parentAt i = if i = ra then rb else uf.parentAt i := by
  intro i
  have h : (uf.attach ra rb).parentAt i = (uf.setParent ra rb).parentAt i := rfl
  rw [h, uf.parentAt_setParent ra rb i hra]

theorem UnionFind.attachBump_size (uf : UnionFind) (ra rb : Nat) :
    (uf.attachBump ra rb).size = uf.size := by
  simp [UnionFind.attachBump, UnionFind.size]

theorem UnionFind.attachBump_parentAt (uf : UnionFind) {ra : Nat} (rb : Nat)
    (hra : ra < uf.size) :
    ∀ i, (uf.attachBump ra rb).parentAt i = if i = ra then rb else uf.parentAt i := by
  intro i
  have h : (uf.attachBump ra rb).parentAt i = (uf.setParent ra rb).parentAt i := rfl
  rw [h, uf.parentAt_setParent ra rb i hra]

theorem UnionFind.attachBump_rankAt (uf : UnionFind) (ra : Nat) {rb : Nat}
    (hrb : rb < uf.rank.length) :
    ∀ i, (uf.attachBump ra rb).rankAt i = if i = rb then uf.rankAt rb + 1 else uf.rankAt i :=
  uf.rankAt_of_rank_set rfl hrb

/-- Attaching a root ra under a different root rb removes exactly ra from the
root set and keeps the invariant, provided ra's rank is strictly smaller. -/
theorem UnionFind.WF_attach (uf : UnionFind) (wf : uf.WF) {ra rb : Nat}
    (hra : ra < uf.size) (hrb : rb < uf.size) (hraroot : uf.parentAt ra = ra)
    (hrbroot : uf.parentAt rb = rb) (hne : ra ≠ rb)
    (hrank : uf.rankAt ra < uf.rankAt rb) : (uf.attach ra rb).WF := by
  have hpat := uf.attach_parentAt rb hra
  have hsz := uf.attach_size ra rb
  have hrkAt : ∀ i, (uf.attach ra rb).rankAt i = uf.rankAt i := fun _ => rfl
  have hcnt : (uf.attach ra rb).count = uf.count - 1 := rfl
  have hcpos : 0 < uf.count := uf.count_pos wf (by omega)
  constructor
  · show (uf.attach ra rb).rank.length = (uf.attach ra rb).parent.length
    have h1 : (uf.attach ra rb).parent.length = uf.parent.length :=
      List.length_set uf.parent ra rb
    have h2 : (uf.attach ra rb).rank = uf.rank := rfl
    rw [h1, h2]; exact wf.rank_length
  · intro i hi
    rw [hpat i]
    by_cases h : i = ra
    · rw [if_pos h]; omega
    · rw [if_neg h]; have := wf.parent_lt i (by omega); omega
  · intro i hi hnei
    rw [hrkAt, hrkAt, hpat i] at *
    by_cases h : i = ra
    · rw [if_pos h] at hnei ⊢; rw [h]; exact hrank
    · rw [if_neg h] at hnei ⊢; exact wf.rank_increase i (by omega) hnei
  · intro i hi
    rw [hrkAt, hcnt]
    have := wf.rank_count i (by omega)
    omega
  · rw [hcnt]
    have hset : (Finset.range (uf.attach ra rb).size).filter
        (fun i => (uf.attach ra rb).parentAt i = i)
        = ((Finset.range uf.size).filter (fun i => uf.parentAt i = i)).erase ra := by
      ext i
      simp only [Finset.mem_filter, Finset.mem_erase, Finset.mem_range, hsz, hpat i]
      by_cases h : i = ra
      · simp only [h, if_pos rfl]
        constructor
        · intro ⟨_, hcon⟩; exact absurd hcon.symm hne
        · intro ⟨hcon, _⟩; exact absurd rfl hcon
      · simp only [if_neg h, h]
        tauto
    have hmem : ra ∈ (Finset.range uf.size).filter (fun i => uf.parentAt i = i) :=
      Finset.mem_filter.mpr ⟨Finset.mem_range.mpr hra, hraroot⟩
    rw [hset, Finset.card_erase_of_mem hmem, ← wf.count_roots]

/-- Equal-rank branch: attaching root ra under root rb of the same rank and
bumping rb's rank keeps the invariant and removes exactly ra from the roots. -/
theorem UnionFind.WF_attachBump (uf : UnionFind) (wf : uf.WF) {ra rb : Nat}
    (hra : ra < uf.size) (hrb : rb < uf.size) (hraroot : uf.parentAt ra = ra)
    (hrbroot : uf.parentAt rb = rb) (hne : ra ≠ rb)
    (hrank : uf.rankAt ra = uf.rankAt rb) : (uf.attachBump ra rb).WF := by
  have hpat := uf.attachBump_parentAt rb hra
  have hsz := uf.attachBump_size ra rb
  have hrblen : rb < uf.rank.length := by rw [wf.rank_length]; exact hrb
  have hrkAt := uf.attachBump_rankAt ra hrblen
  have hcnt : (uf.attachBump ra rb).count = uf.count - 1 := rfl
  have hcpos : 0 < uf.count := uf.count_pos wf (by omega)
  constructor
  · show (uf.attachBump ra rb).rank.length = (uf.attachBump ra rb).parent.length
    have h1 : (uf.attachBump ra rb).parent.length = uf.parent.length :=
      List.length_set uf.parent ra rb
    have h2 : (uf.attachBump ra rb).rank.length = uf.rank.length :=
      List.length_set uf.rank rb (uf.rankAt rb + 1)
    rw [h1, h2]; exact wf.rank_length
  · intro i hi
    rw [hpat i]
    by_cases h : i = ra
    · rw [if_pos h]; omega
    · rw [if_neg h]; have := wf.parent_lt i (by omega); omega
  · intro i hi hnei
    rw [hpat i] at hnei
    rw [hrkAt i, hpat i]
    by_cases hia : i = ra
    · rw [if_pos hia] at hnei ⊢
      rw [hrkAt rb, if_pos rfl, if_neg (by rw [hia]; exact hne)]
      rw [hia, hrank]
      omega
    · rw [if_neg hia] at hnei ⊢
      have hirb : i ≠ rb := by
        intro hc; rw [hc] at hnei; exact hnei hrbroot
      rw [if_neg hirb, hrkAt (uf.parentAt i)]
      have hbase := wf.rank_increase i (by omega) hnei
      by_cases hp : uf.parentAt i = rb
      · rw [if_pos hp, ← hp]; omega
      · rw [if_neg hp]; exact hbase
  · intro i hi
    rw [hrkAt i, hcnt]
    by_cases h : i = rb
    · rw [if_pos h]
      have := wf.rank_count rb hrb
      omega
    · rw [if_neg h]
      have := wf.rank_count i (by omega)
      omega
  · rw [hcnt]
    have hset : (Finset.range (uf.attachBump ra rb).size).filter
        (fun i => (uf.attachBump ra rb).parentAt i = i)
        = ((Finset.range uf.size).filter (fun i => uf.parentAt i = i)).erase ra := by
      ext i
      simp only [Finset.mem_filter, Finset.mem_erase, Finset.mem_range, hsz, hpat i]
      by_cases h : i = ra
      · simp only [h, if_pos rfl]
        constructor
        · intro ⟨_, hcon⟩; exact absurd hcon.symm hne
        · intro ⟨hcon, _⟩; exact absurd rfl hcon
      · simp only [if_neg h, h]
        tauto
    have hmem : ra ∈ (Finset.range uf.size).filter (fun i => uf.parentAt i = i) :=
      Finset.mem_filter.mpr ⟨Finset.mem_range.mpr hra, hraroot⟩
    rw [hset, Finset.card_erase_of_mem hmem, ← wf.count_roots]

/-- Attaching root ra under root rb redirects exactly the elements rooted at
ra to the new root rb and leaves every other root unchanged. -/
theorem UnionFind.rootOf_attach_eq (uf uf' : UnionFind) (wf : uf.WF) (wf' : uf'.WF)
    {ra rb : Nat} (hra : ra < uf.size) (hrb : rb < uf.size)
    (hraroot : uf.parentAt ra = ra) (hrbroot : uf.parentAt rb = rb) (hne : ra ≠ rb)
    (hsize : uf'.size = uf.size)
    (hpat : ∀ i, uf'.parentAt i = if i = ra then rb else uf.parentAt i) :
    ∀ i, uf'.rootOf i = if uf.rootOf i = ra then rb else uf.rootOf i := by
  have hrbroot' : uf'.parentAt rb = rb := by
    rw [hpat rb, if_neg (Ne.symm hne)]; exact hrbroot
  intro i
  rcases Nat.lt_or_ge i uf.size with hi | hi
  · refine uf.rank_gap_induction wf
      (fun z => uf'.rootOf z = if uf.rootOf z = ra then rb else uf.rootOf z) ?_ ?_ i hi
    · intro z hz hzroot
      rw [uf.rootOf_eq_self hzroot]
      by_cases hza : z = ra
      · rw [if_pos hza]
        have hpz : uf'.parentAt z = rb := by rw [hpat z, if_pos hza]
        have hzb : z ≠ rb := by rw [hza]; exact hne
        rw [uf'.rootOf_eq_step wf' (by omega) (by rw [hpz]; exact Ne.symm hzb), hpz,
          uf'.rootOf_eq_self hrbroot']
      · rw [if_neg hza]
        have hpz : uf'.parentAt z = z := by rw [hpat z, if_neg hza]; exact hzroot
        exact uf'.rootOf_eq_self hpz
    · intro z hz hzne ih
      have hza : z ≠ ra := by intro hc; rw [hc] at hzne; exact hzne hraroot
      have hpz : uf'.parentAt z = uf.parentAt z := by rw [hpat z, if_neg hza]
      rw [uf'.rootOf_eq_step wf' (by omega) (by rw [hpz]; exact hzne), hpz, ih,
        ← uf.rootOf_eq_step wf hz hzne]
  · have h1 : uf'.rootOf i = i := uf'.rootOf_oob (by omega)
    have h2 : uf.rootOf i = i := uf.rootOf_oob hi
    rw [h1, h2, if_neg (by omega)]

/-- Merging two distinct root classes ra and rb turns root equality into the
expected three-way disjunction. -/
theorem UnionFind.eqv_iff_attach {uf s : UnionFind} {ra rb X Y : Nat}
    (hne : ra ≠ rb)
    (hors : (ra = X ∧ rb = Y) ∨ (ra = Y ∧ rb = X))
    (hattach : ∀ i, s.rootOf i = if uf.rootOf i = ra then rb else uf.rootOf i) :
    ∀ u v, (s.rootOf u = s.rootOf v) ↔
      (uf.rootOf u = uf.rootOf v ∨ (uf.rootOf u = X ∧ Y = uf.rootOf v) ∨
       (uf.rootOf u = Y ∧ X = uf.rootOf v)) := by
  intro u v
  rw [hattach u, hattach v]
  rcases hors with ⟨h1, h2⟩ | ⟨h1, h2⟩ <;> subst h1 <;> subst h2 <;>
    by_cases hu : uf.rootOf u = ra <;> by_cases hv : uf.rootOf v = ra <;>
    simp only [hu, hv, eq_self_iff_true, if_true, if_false, ite_true, ite_false,
      true_and, and_true, false_and, and_false, true_or, or_true, false_or, or_false,
      iff_true, true_iff, iff_false, false_iff] <;>
    omega

/-- Specification bundle for a Union call on a well-formed state: the boolean
result is true exactly when the two pure roots differed, the count drops by
one exactly on success, and the equivalence after the call is the join of the
old equivalence with the pair x ~ y. -/
structure UnionFind.UnionSpec (uf ufr : UnionFind) (x y : Nat) (b : Bool) : Prop where
  wf : ufr.WF
  size_eq : ufr.size = uf.size
  b_eq : b = decide (uf.rootOf x ≠ uf.rootOf y)
  count_b : ufr.count + (if b then 1 else 0) = uf.count
  eqv_iff : ∀ u v, (ufr.rootOf u = ufr.rootOf v) ↔
      (uf.rootOf u = uf.rootOf v ∨
       (uf.rootOf u = uf.rootOf x ∧ uf.rootOf y = uf.rootOf v) ∨
       (uf.rootOf u = uf.rootOf y ∧ uf.rootOf x = uf.rootOf v))

theorem UnionFind.Union_spec (uf : UnionFind) (wf : uf.WF) {x y : Nat}
    (hx : x < uf.size) (hy : y < uf.size) :
    UnionFind.UnionSpec uf (uf.Union x y).1 x y (uf.Union x y).2 := by
  have specx := uf.Find_spec wf hx
  have wf1 := specx.wf
  have hy1 : y < (uf.Find x).1.size := by rw [specx.size_eq]; exact hy
  have specy := (uf.Find x).1.Find_spec wf1 hy1
  have wf2 := specy.wf
  set s1 := (uf.Find x).1 with hs1
  set rx := (uf.Find x).2 with hrxdef
  set s2 := (s1.Find y).1 with hs2
  set ry := (s1.Find y).2 with hrydef
  have hU : uf.Union x y =
      (if rx = ry then (s2, false)
       else if s2.rankAt rx < s2.rankAt ry then (s2.attach rx ry, true)
       else if s2.rankAt ry < s2.rankAt rx then (s2.attach ry rx, true)
       else (s2.attachBump ry rx, true)) := by
    rw [hrxdef, hrydef, hs2, hs1]
    rfl
  have hrxval : rx = uf.rootOf x := specx.root_eq
  have hryval : ry = uf.rootOf y := by rw [specy.root_eq, specx.rootOf_eq y]
  have hsize2 : s2.size = uf.size := by rw [specy.size_eq, specx.size_eq]
  have hcount2 : s2.count = uf.count := by rw [specy.count_eq, specx.count_eq]
  have hrootOf2 : ∀ i, s2.rootOf i = uf.rootOf i := fun i => by
    rw [specy.rootOf_eq i, specx.rootOf_eq i]
  have hisRoot2 : ∀ i, (s2.parentAt i = i ↔ uf.parentAt i = i) :=
    fun i => (specy.isRoot_iff i).trans (specx.isRoot_iff i)
  have hrxlt : rx < uf.size := by rw [hrxval]; exact uf.rootOf_lt wf hx
  have hrylt : ry < uf.size := by rw [hryval]; exact uf.rootOf_lt wf hy
  have hrxroot : uf.parentAt rx = rx := by
    rw [hrxval]; exact uf.parentAt_rootOf wf hx
  have hryroot : uf.parentAt ry = ry := by
    rw [hryval]; exact uf.parentAt_rootOf wf hy
  have hrxroot2 : s2.parentAt rx = rx := (hisRoot2 rx).mpr hrxroot
  have hryroot2 : s2.parentAt ry = ry := (hisRoot2 ry).mpr hryroot
  have hrxlt2 : rx < s2.size := by omega
  have hrylt2 : ry < s2.size := by omega
  have hcpos : 0 < s2.count := s2.count_pos wf2 (by omega)
  by_cases hxy : rx = ry
  · rw [hU, if_pos hxy]
    have hxyroot : uf.rootOf x = uf.rootOf y := by rw [← hrxval, ← hryval, hxy]
    refine ⟨wf2, hsize2, by simp [hxyroot], by simpa using hcount2, ?_⟩
    intro u v
    show s2.rootOf u = s2.rootOf v ↔ _
    rw [hrootOf2 u, hrootOf2 v]
    constructor
    · intro h; exact Or.inl h
    · rintro (h | ⟨h1, h2⟩ | ⟨h1, h2⟩) <;> omega
  · have hbtrue : True → (true = decide (uf.rootOf x ≠ uf.rootOf y)) := by
      intro _
      have : uf.rootOf x ≠ uf.rootOf y := by rw [← hrxval, ← hryval]; exact hxy
      simp [this]
    by_cases hr1 : s2.rankAt rx < s2.rankAt ry
    · rw [hU, if_neg hxy, if_pos hr1]
      have wf3 := s2.WF_attach wf2 hrxlt2 hrylt2 hrxroot2 hryroot2 hxy hr1
      have hattach := UnionFind.rootOf_attach_eq s2 (s2.attach rx ry) wf2 wf3
        hrxlt2 hrylt2 hrxroot2 hryroot2 hxy (s2.attach_size rx ry)
        (s2.attach_parentAt ry hrxlt2)
      have heqv := UnionFind.eqv_iff_attach (X := rx) (Y := ry) hxy
        (Or.inl ⟨rfl, rfl⟩) hattach
      refine ⟨wf3, ?_, hbtrue trivial, ?_, ?_⟩
      · rw [s2.attach_size rx ry]; exact hsize2
      · have hc3 : (s2.attach rx ry).count = s2.count - 1 := rfl
        simp only [if_true, ite_true]
        omega
      · intro u v
        rw [heqv u v, hrootOf2 u, hrootOf2 v, hrxval, hryval]
    · by_cases hr2 : s2.rankAt ry < s2.rankAt rx
      · rw [hU, if_neg hxy, if_neg hr1, if_pos hr2]
        have wf3 := s2.WF_attach wf2 hrylt2 hrxlt2 hryroot2 hrxroot2 (Ne.symm hxy) hr2
        have hattach := UnionFind.rootOf_attach_eq s2 (s2.attach ry rx) wf2 wf3
          hrylt2 hrxlt2 hryroot2 hrxroot2 (Ne.symm hxy) (s2.attach_size ry rx)
          (s2.attach_parentAt rx hrylt2)
        have heqv := UnionFind.eqv_iff_attach (X := rx) (Y := ry) (Ne.symm hxy)
          (Or.inr ⟨rfl, rfl⟩) hattach
        refine ⟨wf3, ?_, hbtrue trivial, ?_, ?_⟩
        · rw [s2.attach_size ry rx]; exact hsize2
        · have hc3 : (s2.attach ry rx).count = s2.count - 1 := rfl
          simp only [if_true, ite_true]
          omega
        · intro u v
          rw [heqv u v, hrootOf2 u, hrootOf2 v, hrxval, hryval]
      · rw [hU, if_neg hxy, if_neg hr1, if_neg hr2]
        have hreq : s2.rankAt ry = s2.rankAt rx := by omega
        have wf3 := s2.WF_attachBump wf2 hrylt2 hrxlt2 hryroot2 hrxroot2
          (Ne.symm hxy) hreq
        have hattach := UnionFind.rootOf_attach_eq s2 (s2.attachBump ry rx) wf2 wf3
          hrylt2 hrxlt2 hryroot2 hrxroot2 (Ne.symm hxy) (s2.attachBump_size ry rx)
          (s2.attachBump_parentAt rx hrylt2)
        have heqv := UnionFind.eqv_iff_attach (X := rx) (Y := ry) (Ne.symm hxy)
          (Or.inr ⟨rfl, rfl⟩) hattach
        refine ⟨wf3, ?_, hbtrue trivial, ?_, ?_⟩
        · rw [s2.attachBump_size ry rx]; exact hsize2
        · have hc3 : (s2.attachBump ry rx).count = s2.count - 1 := rfl
          simp only [if_true, ite_true]
          omega
        · intro u v
          rw [heqv u v, hrootOf2 u, hrootOf2 v, hrxval, hryval]

theorem UnionFind.Connected_spec (uf : UnionFind) (wf : uf.WF) {x y : Nat}
    (hx : x < uf.size) (hy : y < uf.size) :
    (uf.Connected x y).2 = decide (uf.rootOf x = uf.rootOf y) ∧
    (uf.Connected x y).1.WF ∧ (uf.Connected x y).1.size = uf.size ∧
    (uf.Connected x y).1.count = uf.count ∧
    (∀ i, (uf.Connected x y).1.rootOf i = uf.rootOf i) ∧
    (∀ i, ((uf.Connected x y).1.parentAt i = i ↔ uf.parentAt i = i)) := by
  have specx := uf.Find_spec wf hx
  have wf1 := specx.wf
  have hy1 : y < (uf.Find x).1.size := by rw [specx.size_eq]; exact hy
  have specy := (uf.Find x).1.Find_spec wf1 hy1
  have wf2 := specy.wf
  set s1 := (uf.Find x).1 with hs1
  set rx := (uf.Find x).2 with hrxdef
  set s2 := (s1.Find y).1 with hs2
  set ry := (s1.Find y).2 with hrydef
  have hC : uf.Connected x y = (s2, rx == ry) := by
    rw [hrxdef, hrydef, hs2, hs1]
    rfl
  have hrxval : rx = uf.rootOf x := specx.root_eq
  have hryval : ry = uf.rootOf y := by rw [specy.root_eq, specx.rootOf_eq y]
  rw [hC]
  refine ⟨?_, specy.wf, by rw [specy.size_eq, specx.size_eq],
    by rw [specy.count_eq, specx.count_eq],
    fun i => by rw [specy.rootOf_eq i, specx.rootOf_eq i],
    fun i => (specy.isRoot_iff i).trans (specx.isRoot_iff i)⟩
  show (rx == ry) = decide (uf.rootOf x = uf.rootOf y)
  rw [hrxval, hryval]
  by_cases h : uf.rootOf x = uf.rootOf y <;> simp [h]

/-- States reachable from `NewUnionFind n` by any sequence of Union / Find /
Connected calls on valid indices. -/
inductive ReachableUF (n : Nat) : UnionFind → Prop
  | init : ReachableUF n (NewUnionFind n)
  | union {uf : UnionFind} (x y : Nat) :
      ReachableUF n uf → x < n → y < n → ReachableUF n (uf.Union x y).1
  | find {uf : UnionFind} (x : Nat) :
      ReachableUF n uf → x < n → ReachableUF n (uf.Find x).1
  | connected {uf : UnionFind} (x y : Nat) :
      ReachableUF n uf → x < n → y < n → ReachableUF n (uf.Connected x y).1

theorem ReachableUF.wf_size {n : Nat} {uf : UnionFind} (h : ReachableUF n uf) :
    uf.WF ∧ uf.size = n := by
  induction h with
  | init => exact ⟨NewUnionFind_WF n, NewUnionFind_size n⟩
  | @union uf0 x y _ hx hy ih =>
    obtain ⟨w, hs⟩ := ih
    have spec := uf0.Union_spec w (show x < uf0.size by omega) (show y < uf0.size by omega)
    exact ⟨spec.wf, by rw [spec.size_eq]; exact hs⟩
  | @find uf0 x _ hx ih =>
    obtain ⟨w, hs⟩ := ih
    have spec := uf0.Find_spec w (show x < uf0.size by omega)
    exact ⟨spec.wf, by rw [spec.size_eq]; exact hs⟩
  | @connected uf0 x y _ hx hy ih =>
    obtain ⟨w, hs⟩ := ih
    have spec := uf0.Connected_spec w (show x < uf0.size by omega) (show y < uf0.size by omega)
    exact ⟨spec.2.1, by rw [spec.2.2.1]; exact hs⟩

/-- Embedding of a caller loop issuing one Union per listed pair, returning
the final structure and the number of Union calls that returned true. -/
def RunUnions (uf : UnionFind) : List (Nat × Nat) → UnionFind × Nat
  | [] => (uf, 0)
  | p :: rest =>
    let r := uf.Union p.1 p.2
    let t := RunUnions r.1 rest
    (t.1, (if r.2 then 1 else 0) + t.2)

theorem RunUnions_reach_count (n : Nat) :
    ∀ (L : List (Nat × Nat)) (uf : UnionFind), ReachableUF n uf →
      (∀ p ∈ L, p.1 < n ∧ p.2 < n) →
      ReachableUF n (RunUnions uf L).1 ∧
      (RunUnions uf L).1.count + (RunUnions uf L).2 = uf.count := by
  intro L
  induction L with
  | nil => intro uf hreach _; exact ⟨hreach, by simp [RunUnions]⟩
  | cons p rest ih =>
    intro uf hreach hL
    have hp := hL p (List.mem_cons_self p rest)
    have hreach1 : ReachableUF n (uf.Union p.1 p.2).1 :=
      ReachableUF.union p.1 p.2 hreach hp.1 hp.2
    obtain ⟨w, hs⟩ := hreach.wf_size
    have spec := uf.Union_spec w (show p.1 < uf.size by omega) (show p.2 < uf.size by omega)
    have hrest := ih (uf.Union p.1 p.2).1 hreach1 (fun q hq => hL q (List.mem_cons_of_mem p hq))
    have hcount := spec.count_b
    refine ⟨hrest.1, ?_⟩
    show (RunUnions (uf.Union p.1 p.2).1 rest).1.count +
      ((if (uf.Union p.1 p.2).2 then 1 else 0) + (RunUnions (uf.Union p.1 p.2).1 rest).2) = uf.count
    cases hb : (uf.Union p.1 p.2).2 <;> rw [hb] at hcount <;> simp at hcount ⊢ <;> omega

theorem ReachableUF.count_eq_findRoots {n : Nat} {uf : UnionFind} (h : ReachableUF n uf) :
    uf.Count = ((Finset.range n).image (fun i => (uf.Find i).2)).card := by
  obtain ⟨wf, hs⟩ := h.wf_size
  have himg : (Finset.range n).image (fun i => (uf.Find i).2)
      = (Finset.range uf.size).filter (fun i => uf.parentAt i = i) := by
    ext r
    simp only [Finset.mem_image, Finset.mem_filter, Finset.mem_range]
    constructor
    · rintro ⟨i, hi, hri⟩
      have hi' : i < uf.size := by omega
      have hval : (uf.Find i).2 = uf.rootOf i := (uf.Find_spec wf hi').root_eq
      rw [hval] at hri
      subst hri
      exact ⟨by have := uf.rootOf_lt wf hi'; omega, uf.parentAt_rootOf wf hi'⟩
    · rintro ⟨hr, hroot⟩
      refine ⟨r, by omega, ?_⟩
      have hval : (uf.Find r).2 = uf.rootOf r := (uf.Find_spec wf hr).root_eq
      rw [hval, uf.rootOf_eq_self hroot]
  rw [UnionFind.Count, himg, ← wf.count_roots]

/-- C1: after any valid sequence of Union calls on NewUnionFind(n), if k of
them returned true then Count() returns n - k; and at every reachable state
Count() equals the number of distinct values returned by Find over all n
elements. -/
theorem count_after_unions (n : Nat) (L : List (Nat × Nat))
    (hL : ∀ p ∈ L, p.1 < n ∧ p.2 < n) (uf : UnionFind) (hreach : ReachableUF n uf) :
    ((RunUnions (NewUnionFind n) L).1.Count = n - (RunUnions (NewUnionFind n) L).2 ∧
      (RunUnions (NewUnionFind n) L).2 ≤ n) ∧
    uf.Count = ((Finset.range n).image (fun i => (uf.Find i).2)).card := by
  have hrun := RunUnions_reach_count n L (NewUnionFind n) ReachableUF.init hL
  have hc : (RunUnions (NewUnionFind n) L).1.count + (RunUnions (NewUnionFind n) L).2
      = n := by rw [hrun.2, NewUnionFind_count]
  exact ⟨⟨by unfold UnionFind.Count; omega, by omega⟩, hreach.count_eq_findRoots⟩

theorem count_after_unions_witness :
    (∀ p ∈ [(0, 1), (1, 2), (0, 2)], p.1 < 3 ∧ p.2 < 3) ∧
    (((RunUnions (NewUnionFind 3) [(0, 1), (1, 2), (0, 2)]).1.Count
        = 3 - (RunUnions (NewUnionFind 3) [(0, 1), (1, 2), (0, 2)]).2 ∧
      (RunUnions (NewUnionFind 3) [(0, 1), (1, 2), (0, 2)]).2 ≤ 3) ∧
    (NewUnionFind 3).Count
      = ((Finset.range 3).image (fun i => ((NewUnionFind 3).Find i).2)).card) :=
  ⟨by decide, count_after_unions 3 [(0, 1), (1, 2), (0, 2)] (by decide)
    (NewUnionFind 3) ReachableUF.init⟩

/-- C2: at every reachable state, the boolean relation computed by Connected
is reflexive, symmetric and transitive on valid indices. -/
theorem connected_equivalence (n : Nat) (uf : UnionFind) (hreach : ReachableUF n uf)
    (x y z : Nat) (hx : x < n) (hy : y < n) (hz : z < n) :
    (uf.Connected x x).2 = true ∧
    (uf.Connected x y).2 = (uf.Connected y x).2 ∧
    ((uf.Connected x y).2 = true → (uf.Connected y z).2 = true →
      (uf.Connected x z).2 = true) := by
  obtain ⟨wf, hs⟩ := hreach.wf_size
  have hx' : x < uf.size := by omega
  have hy' : y < uf.size := by omega
  have hz' : z < uf.size := by omega
  have bxx := (uf.Connected_spec wf hx' hx').1
  have bxy := (uf.Connected_spec wf hx' hy').1
  have byx := (uf.Connected_spec wf hy' hx').1
  have byz := (uf.Connected_spec wf hy' hz').1
  have bxz := (uf.Connected_spec wf hx' hz').1
  refine ⟨by simp [bxx], ?_, ?_⟩
  · rw [bxy, byx]
    exact decide_eq_decide.mpr ⟨Eq.symm, Eq.symm⟩
  · intro h1 h2
    rw [bxy] at h1
    rw [byz] at h2
    rw [bxz]
    simp only [decide_eq_true_eq] at h1 h2 ⊢
    omega

theorem connected_equivalence_witness :
    ((NewUnionFind 2).Connected 0 0).2 = true ∧
    ((NewUnionFind 2).Connected 0 1).2 = ((NewUnionFind 2).Connected 1 0).2 ∧
    (((NewUnionFind 2).Connected 0 1).2 = true →
      ((NewUnionFind 2).Connected 1 1).2 = true →
      ((NewUnionFind 2).Connected 0 1).2 = true) :=
  connected_equivalence 2 (NewUnionFind 2) ReachableUF.init 0 1 1
    (by decide) (by decide) (by decide)

/-- C4: in every reachable state, parent[i] = i exactly when i is its own
representative; parent chains from any element reach a self-loop (a root)
within n steps; and Find computes with any recursion budget of at least n,
i.e. Go's unbounded recursion terminates with this value. -/
theorem parent_chains_terminate (n : Nat) (uf : UnionFind) (hreach : ReachableUF n uf)
    (i : Nat) (hi : i < n) :
    (uf.parentAt i = i ↔ uf.rootOf i = i) ∧
    (∃ k, k ≤ n ∧ uf.parentAt (uf.parentIter k i) = uf.parentIter k i) ∧
    (∀ fuel, n ≤ fuel → UnionFind.FindAux fuel uf i = uf.Find i) := by
  obtain ⟨wf, hs⟩ := hreach.wf_size
  have hi' : i < uf.size := by omega
  refine ⟨?_, ?_, ?_⟩
  · constructor
    · intro h; exact uf.rootOf_eq_self h
    · intro h
      by_contra hne
      exact uf.rootOf_ne wf hi' hne h
  · have aux : ∀ j, j < uf.size →
        ∃ k, k + uf.rankAt j ≤ uf.size ∧
          uf.parentAt (uf.parentIter k j) = uf.parentIter k j := by
      refine uf.rank_gap_induction wf (fun j =>
        ∃ k, k + uf.rankAt j ≤ uf.size ∧
          uf.parentAt (uf.parentIter k j) = uf.parentIter k j) ?_ ?_
      · intro j hj hroot
        exact ⟨0, by have := uf.rankAt_lt wf hj; omega, hroot⟩
      · intro j hj hjne ih
        obtain ⟨k, hk, hkroot⟩ := ih
        have hrk := wf.rank_increase j hj hjne
        refine ⟨k + 1, by omega, ?_⟩
        have hiter : uf.parentIter (k + 1) j = uf.parentIter k (uf.parentAt j) := rfl
        rw [hiter]
        exact hkroot
    obtain ⟨k, hk, hkroot⟩ := aux i hi'
    exact ⟨k, by omega, hkroot⟩
  · intro fuel hfuel
    show UnionFind.FindAux fuel uf i = UnionFind.FindAux uf.size uf i
    exact uf.FindAux_congr wf fuel uf.size i hi' (by omega) (by omega)

theorem parent_chains_terminate_witness :
    (((NewUnionFind 2).parentAt 1 = 1 ↔ (NewUnionFind 2).rootOf 1 = 1) ∧
    (∃ k, k ≤ 2 ∧ (NewUnionFind 2).parentAt ((NewUnionFind 2).parentIter k 1)
      = (NewUnionFind 2).parentIter k 1) ∧
    (∀ fuel, 2 ≤ fuel →
      UnionFind.FindAux fuel (NewUnionFind 2) 1 = (NewUnionFind 2).Find 1)) :=
  parent_chains_terminate 2 (NewUnionFind 2) ReachableUF.init 1 (by decide)

/-- C5: in a reachable state where Connected(x, y) returns true, Union(x, y)
returns the boolean false and leaves Count() unchanged. -/
theorem union_noop_on_connected (n : Nat) (uf : UnionFind) (hreach : ReachableUF n uf)
    (x y : Nat) (hx : x < n) (hy : y < n) (hconn : (uf.Connected x y).2 = true) :
    (uf.Union x y).2 = false ∧ (uf.Union x y).1.Count = uf.Count := by
  obtain ⟨wf, hs⟩ := hreach.wf_size
  have hx' : x < uf.size := by omega
  have hy' : y < uf.size := by omega
  have hb := (uf.Connected_spec wf hx' hy').1
  rw [hb] at hconn
  have hroots : uf.rootOf x = uf.rootOf y := by simpa using hconn
  have spec := uf.Union_spec wf hx' hy'
  have hfalse : (uf.Union x y).2 = false := by
    rw [spec.b_eq]
    simp [hroots]
  refine ⟨hfalse, ?_⟩
  have hcount := spec.count_b
  rw [hfalse] at hcount
  simp at hcount
  unfold UnionFind.Count
  omega

theorem union_noop_on_connected_witness :
    ((NewUnionFind 2).Connected 0 0).2 = true ∧
    (((NewUnionFind 2).Union 0 0).2 = false ∧
      ((NewUnionFind 2).Union 0 0).1.Count = (NewUnionFind 2).Count) :=
  ⟨by decide, union_noop_on_connected 2 (NewUnionFind 2) ReachableUF.init 0 0
    (by decide) (by decide) (by decide)⟩

/-! Equivalence-closure machinery relating runs of Union to the closure of the
issued pairs. -/

theorem eqvGen_bind {r s : Nat → Nat → Prop}
    (h : ∀ u v, r u v → Relation.EqvGen s u v) :
    ∀ a b, Relation.EqvGen r a b → Relation.EqvGen s a b := by
  intro a b hab
  induction hab with
  | rel u v huv => exact h u v huv
  | refl u => exact Relation.EqvGen.refl u
  | symm u v _ ih => exact Relation.EqvGen.symm u v ih
  | trans u v w _ _ ih1 ih2 => exact Relation.EqvGen.trans u v w ih1 ih2

theorem eqvGen_rootOf_absorb (uf : UnionFind) (r : Nat → Nat → Prop)
    (hr : ∀ u v, r u v → uf.rootOf u = uf.rootOf v) :
    ∀ a b, Relation.EqvGen (fun u v => uf.rootOf u = uf.rootOf v ∨ r u v) a b ↔
      uf.rootOf a = uf.rootOf b := by
  intro a b
  constructor
  · intro h
    induction h with
    | rel u v huv =>
      rcases huv with h | h
      · exact h
      · exact hr u v h
    | refl u => rfl
    | symm u v _ ih => exact ih.symm
    | trans u v w _ _ ih1 ih2 => exact ih1.trans ih2
  · intro h
    exact Relation.EqvGen.rel a b (Or.inl h)

theorem RunUnions_eqv_mono (n : Nat) :
    ∀ (L : List (Nat × Nat)) (uf : UnionFind), ReachableUF n uf →
      (∀ p ∈ L, p.1 < n ∧ p.2 < n) → ∀ u v,
      uf.rootOf u = uf.rootOf v →
      (RunUnions uf L).1.rootOf u = (RunUnions uf L).1.rootOf v := by
  intro L
  induction L with
  | nil => intro uf _ _ u v h; exact h
  | cons p rest ih =>
    intro uf hreach hL u v h
    obtain ⟨w, hs⟩ := hreach.wf_size
    have hp := hL p (List.mem_cons_self p rest)
    have spec := uf.Union_spec w (show p.1 < uf.size by omega) (show p.2 < uf.size by omega)
    have hreach1 : ReachableUF n (uf.Union p.1 p.2).1 :=
      ReachableUF.union p.1 p.2 hreach hp.1 hp.2
    have h1 : (uf.Union p.1 p.2).1.rootOf u = (uf.Union p.1 p.2).1.rootOf v :=
      (spec.eqv_iff u v).mpr (Or.inl h)
    exact ih (uf.Union p.1 p.2).1 hreach1
      (fun q hq => hL q (List.mem_cons_of_mem p hq)) u v h1

theorem RunUnions_eqv_mem (n : Nat) :
    ∀ (L : List (Nat × Nat)) (uf : UnionFind), ReachableUF n uf →
      (∀ p ∈ L, p.1 < n ∧ p.2 < n) → ∀ u v, (u, v) ∈ L →
      (RunUnions uf L).1.rootOf u = (RunUnions uf L).1.rootOf v := by
  intro L
  induction L with
  | nil => intro uf _ _ u v h; exact absurd h (List.not_mem_nil (u, v))
  | cons p rest ih =>
    intro uf hreach hL u v hmem
    obtain ⟨w, hs⟩ := hreach.wf_size
    have hp := hL p (List.mem_cons_self p rest)
    have spec := uf.Union_spec w (show p.1 < uf.size by omega) (show p.2 < uf.size by omega)
    have hreach1 : ReachableUF n (uf.Union p.1 p.2).1 :=
      ReachableUF.union p.1 p.2 hreach hp.1 hp.2
    have hL1 := fun q hq => hL q (List.mem_cons_of_mem p hq)
    rcases List.mem_cons.mp hmem with heq | hmem'
    · have huv : (uf.Union p.1 p.2).1.rootOf u = (uf.Union p.1 p.2).1.rootOf v := by
        subst heq
        exact (spec.eqv_iff u v).mpr (Or.inr (Or.inl ⟨rfl, rfl⟩))
      exact RunUnions_eqv_mono n rest (uf.Union p.1 p.2).1 hreach1 hL1 u v huv
    · exact ih (uf.Union p.1 p.2).1 hreach1 hL1 u v hmem'

/-- Root equality after a run of Unions is exactly the equivalence closure of
the starting root equality joined with the list of issued pairs. -/
theorem RunUnions_eqv_iff (n : Nat) :
    ∀ (L : List (Nat × Nat)) (uf : UnionFind), ReachableUF n uf →
      (∀ p ∈ L, p.1 < n ∧ p.2 < n) → ∀ a b,
      ((RunUnions uf L).1.rootOf a = (RunUnions uf L).1.rootOf b ↔
        Relation.EqvGen (fun u v => uf.rootOf u = uf.rootOf v ∨ (u, v) ∈ L) a b) := by
  intro L
  induction L with
  | nil =>
    intro uf _ _ a b
    show uf.rootOf a = uf.rootOf b ↔ _
    exact (eqvGen_rootOf_absorb uf (fun u v => (u, v) ∈ ([] : List (Nat × Nat)))
      (fun u v h => absurd h (List.not_mem_nil (u, v))) a b).symm
  | cons p rest ih =>
    intro uf hreach hL a b
    obtain ⟨w, hs⟩ := hreach.wf_size
    have hp := hL p (List.mem_cons_self p rest)
    have spec := uf.Union_spec w (show p.1 < uf.size by omega) (show p.2 < uf.size by omega)
    have hreach1 : ReachableUF n (uf.Union p.1 p.2).1 :=
      ReachableUF.union p.1 p.2 hreach hp.1 hp.2
    have hL1 := fun q hq => hL q (List.mem_cons_of_mem p hq)
    have hIH := ih (uf.Union p.1 p.2).1 hreach1 hL1 a b
    show (RunUnions (uf.Union p.1 p.2).1 rest).1.rootOf a
        = (RunUnions (uf.Union p.1 p.2).1 rest).1.rootOf b ↔ _
    rw [hIH]
    constructor
    · refine eqvGen_bind ?_ a b
      intro u v huv
      rcases huv with huv | huv
      · rcases (spec.eqv_iff u v).mp huv with h | ⟨h1, h2⟩ | ⟨h1, h2⟩
        · exact Relation.EqvGen.rel u v (Or.inl h)
        · exact Relation.EqvGen.trans u p.1 v (Relation.EqvGen.rel u p.1 (Or.inl h1))
            (Relation.EqvGen.trans p.1 p.2 v
              (Relation.EqvGen.rel p.1 p.2 (Or.inr (List.mem_cons_self p rest)))
              (Relation.EqvGen.rel p.2 v (Or.inl h2)))
        · exact Relation.EqvGen.trans u p.2 v (Relation.EqvGen.rel u p.2 (Or.inl h1))
            (Relation.EqvGen.trans p.2 p.1 v
              (Relation.EqvGen.symm p.1 p.2
                (Relation.EqvGen.rel p.1 p.2 (Or.inr (List.mem_cons_self p rest))))
              (Relation.EqvGen.rel p.1 v (Or.inl h2)))
      · exact Relation.EqvGen.rel u v (Or.inr (List.mem_cons_of_mem p huv))
    · refine eqvGen_bind ?_ a b
      intro u v huv
      rcases huv with huv | huv
      · exact Relation.EqvGen.rel u v (Or.inl ((spec.eqv_iff u v).mpr (Or.inl huv)))
      · rcases List.mem_cons.mp huv with heq | hmem
        · subst heq
          exact Relation.EqvGen.rel u v
            (Or.inl ((spec.eqv_iff u v).mpr (Or.inr (Or.inl ⟨rfl, rfl⟩))))
        · exact Relation.EqvGen.rel u v (Or.inr hmem)

theorem NewUnionFind_rootOf (n i : Nat) : (NewUnionFind n).rootOf i = i :=
  (NewUnionFind n).rootOf_eq_self (NewUnionFind_parentAt n i)

/-- C3: applying a fixed multiset of Union pairs in any two orders to a fresh
structure yields the same Connected verdict for every pair of valid elements. -/
theorem union_order_independent (n : Nat) (L1 L2 : List (Nat × Nat))
    (hperm : L1.Perm L2) (hL : ∀ p ∈ L1, p.1 < n ∧ p.2 < n)
    (x y : Nat) (hx : x < n) (hy : y < n) :
    ((RunUnions (NewUnionFind n) L1).1.Connected x y).2 =
    ((RunUnions (NewUnionFind n) L2).1.Connected x y).2 := by
  have hL2 : ∀ p ∈ L2, p.1 < n ∧ p.2 < n := fun p hp => hL p (hperm.mem_iff.mpr hp)
  have hr1 := (RunUnions_reach_count n L1 (NewUnionFind n) ReachableUF.init hL).1
  have hr2 := (RunUnions_reach_count n L2 (NewUnionFind n) ReachableUF.init hL2).1
  obtain ⟨w1, hs1⟩ := hr1.wf_size
  obtain ⟨w2, hs2⟩ := hr2.wf_size
  have hb1 := ((RunUnions (NewUnionFind n) L1).1.Connected_spec w1
    (show x < (RunUnions (NewUnionFind n) L1).1.size by omega)
    (show y < (RunUnions (NewUnionFind n) L1).1.size by omega)).1
  have hb2 := ((RunUnions (NewUnionFind n) L2).1.Connected_spec w2
    (show x < (RunUnions (NewUnionFind n) L2).1.size by omega)
    (show y < (RunUnions (NewUnionFind n) L2).1.size by omega)).1
  rw [hb1, hb2]
  apply decide_eq_decide.mpr
  have hiff1 := RunUnions_eqv_iff n L1 (NewUnionFind n) ReachableUF.init hL x y
  have hiff2 := RunUnions_eqv_iff n L2 (NewUnionFind n) ReachableUF.init hL2 x y
  have hmap12 : ∀ u v,
      ((NewUnionFind n).rootOf u = (NewUnionFind n).rootOf v ∨ (u, v) ∈ L1) →
      Relation.EqvGen
        (fun u v => (NewUnionFind n).rootOf u = (NewUnionFind n).rootOf v ∨ (u, v) ∈ L2)
        u v := by
    intro u v h
    rcases h with h | h
    · exact Relation.EqvGen.rel u v (Or.inl h)
    · exact Relation.EqvGen.rel u v (Or.inr (hperm.mem_iff.mp h))
  have hmap21 : ∀ u v,
      ((NewUnionFind n).rootOf u = (NewUnionFind n).rootOf v ∨ (u, v) ∈ L2) →
      Relation.EqvGen
        (fun u v => (NewUnionFind n).rootOf u = (NewUnionFind n).rootOf v ∨ (u, v) ∈ L1)
        u v := by
    intro u v h
    rcases h with h | h
    · exact Relation.EqvGen.rel u v (Or.inl h)
    · exact Relation.EqvGen.rel u v (Or.inr (hperm.mem_iff.mpr h))
  exact hiff1.trans (Iff.trans ⟨eqvGen_bind hmap12 x y, eqvGen_bind hmap21 x y⟩ hiff2.symm)

theorem union_order_independent_witness :
    ([(0, 1), (1, 2)] : List (Nat × Nat)).Perm [(1, 2), (0, 1)] ∧
    (∀ p ∈ ([(0, 1), (1, 2)] : List (Nat × Nat)), p.1 < 3 ∧ p.2 < 3) ∧
    ((RunUnions (NewUnionFind 3) [(0, 1), (1, 2)]).1.Connected 0 2).2 =
    ((RunUnions (NewUnionFind 3) [(1, 2), (0, 1)]).1.Connected 0 2).2 :=
  ⟨by decide, by decide,
    union_order_independent 3 [(0, 1), (1, 2)] [(1, 2), (0, 1)] (by decide) (by decide)
      0 2 (by decide) (by decide)⟩

/-! Cycle detection. -/

/-- Loop body of DetectCycle: for each edge, if Connected(From, To) already
holds return true, otherwise Union(From, To) and continue. -/
def DetectCycleLoop (uf : UnionFind) : List Edge → Bool
  | [] => false
  | e :: rest =>
    let c := uf.Connected e.From e.To
    if c.2 then true
    else DetectCycleLoop (c.1.Union e.From e.To).1 rest

/-- DetectCycle detects if an undirected graph has a cycle: fresh
UnionFind(n), then the loop above, returning false if no edge closed a
cycle. -/
def DetectCycle (n : Nat) (edges : List Edge) : Bool :=
  DetectCycleLoop (NewUnionFind n) edges

/-- Relation generated by a list of edges: u, v are the endpoints of some
listed edge. -/
def EdgeRel (es : List Edge) (u v : Nat) : Prop :=
  ∃ e ∈ es, u = e.From ∧ v = e.To

theorem EdgeRel_nil_absorb (uf : UnionFind) :
    ∀ u v, EdgeRel [] u v → uf.rootOf u = uf.rootOf v := by
  rintro u v ⟨e', he', _, _⟩
  exact absurd he' (List.not_mem_nil e')

theorem DetectCycleLoop_iff (n : Nat) :
    ∀ (es : List Edge) (uf : UnionFind), ReachableUF n uf →
      (∀ e ∈ es, e.From < n ∧ e.To < n) →
      (DetectCycleLoop uf es = true ↔
        ∃ i, ∃ h : i < es.length,
          Relation.EqvGen
            (fun u v => uf.rootOf u = uf.rootOf v ∨ EdgeRel (es.take i) u v)
            (es.get ⟨i, h⟩).From (es.get ⟨i, h⟩).To) := by
  intro es
  induction es with
  | nil =>
    intro uf _ _
    constructor
    · intro h; exact absurd h (by simp [DetectCycleLoop])
    · rintro ⟨i, hi, _⟩; exact absurd hi (by simp)
  | cons e rest ih =>
    intro uf hreach hE
    obtain ⟨w, hs⟩ := hreach.wf_size
    have he := hE e (List.mem_cons_self e rest)
    have hE1 := fun e' h' => hE e' (List.mem_cons_of_mem e h')
    have hconn := uf.Connected_spec w (show e.From < uf.size by omega)
      (show e.To < uf.size by omega)
    have hreachS : ReachableUF n (uf.Connected e.From e.To).1 :=
      ReachableUF.connected e.From e.To hreach he.1 he.2
    obtain ⟨ws, hss⟩ := hreachS.wf_size
    have hspec := (uf.Connected e.From e.To).1.Union_spec ws
      (show e.From < (uf.Connected e.From e.To).1.size by omega)
      (show e.To < (uf.Connected e.From e.To).1.size by omega)
    have hreach1 : ReachableUF n ((uf.Connected e.From e.To).1.Union e.From e.To).1 :=
      ReachableUF.union e.From e.To hreachS he.1 he.2
    have hD : DetectCycleLoop uf (e :: rest) =
        if (uf.Connected e.From e.To).2 then true
        else DetectCycleLoop ((uf.Connected e.From e.To).1.Union e.From e.To).1 rest := rfl
    have hb := hconn.1
    have hrootS : ∀ i, (uf.Connected e.From e.To).1.rootOf i = uf.rootOf i :=
      hconn.2.2.2.2.1
    have heqv1 : ∀ u v,
        (((uf.Connected e.From e.To).1.Union e.From e.To).1.rootOf u
          = ((uf.Connected e.From e.To).1.Union e.From e.To).1.rootOf v) ↔
        (uf.rootOf u = uf.rootOf v ∨
         (uf.rootOf u = uf.rootOf e.From ∧ uf.rootOf e.To = uf.rootOf v) ∨
         (uf.rootOf u = uf.rootOf e.To ∧ uf.rootOf e.From = uf.rootOf v)) := by
      intro u v
      rw [hspec.eqv_iff u v, hrootS u, hrootS v, hrootS e.From, hrootS e.To]
    by_cases hcy : uf.rootOf e.From = uf.rootOf e.To
    · have hbt : (uf.Connected e.From e.To).2 = true := by rw [hb]; simp [hcy]
      rw [hD, hbt, if_pos rfl]
      constructor
      · intro _
        exact ⟨0, by simp, Relation.EqvGen.rel e.From e.To (Or.inl hcy)⟩
      · intro _; rfl
    · have hbf : (uf.Connected e.From e.To).2 = false := by rw [hb]; simp [hcy]
      rw [hD, hbf, if_neg Bool.false_ne_true]
      rw [ih ((uf.Connected e.From e.To).1.Union e.From e.To).1 hreach1 hE1]
      constructor
      · rintro ⟨j, hj, hEq⟩
        refine ⟨j + 1, by simp only [List.length_cons]; omega, ?_⟩
        refine eqvGen_bind ?_ _ _ hEq
        intro u v huv
        rcases huv with huv | huv
        · rcases (heqv1 u v).mp huv with h | ⟨h1, h2⟩ | ⟨h1, h2⟩
          · exact Relation.EqvGen.rel u v (Or.inl h)
          · exact Relation.EqvGen.trans u e.From v
              (Relation.EqvGen.rel u e.From (Or.inl h1))
              (Relation.EqvGen.trans e.From e.To v
                (Relation.EqvGen.rel e.From e.To
                  (Or.inr ⟨e, List.mem_cons_self e (rest.take j), rfl, rfl⟩))
                (Relation.EqvGen.rel e.To v (Or.inl h2)))
          · exact Relation.EqvGen.trans u e.To v
              (Relation.EqvGen.rel u e.To (Or.inl h1))
              (Relation.EqvGen.trans e.To e.From v
                (Relation.EqvGen.symm e.From e.To
                  (Relation.EqvGen.rel e.From e.To
                    (Or.inr ⟨e, List.mem_cons_self e (rest.take j), rfl, rfl⟩)))
                (Relation.EqvGen.rel e.From v (Or.inl h2)))
        · obtain ⟨e', he', h1, h2⟩ := huv
          exact Relation.EqvGen.rel u v
            (Or.inr ⟨e', List.mem_cons_of_mem e he', h1, h2⟩)
      · rintro ⟨i, hi, hEq⟩
        cases i with
        | zero =>
          have hcon := (eqvGen_rootOf_absorb uf (EdgeRel [])
            (EdgeRel_nil_absorb uf) e.From e.To).mp hEq
          exact absurd hcon hcy
        | succ j =>
          have hj : j < rest.length := by
            simp only [List.length_cons] at hi; omega
          refine ⟨j, hj, ?_⟩
          refine eqvGen_bind ?_ _ _ hEq
          intro u v huv
          rcases huv with huv | huv
          · exact Relation.EqvGen.rel u v (Or.inl ((heqv1 u v).mpr (Or.inl huv)))
          · obtain ⟨e', he', h1, h2⟩ := huv
            rcases List.mem_cons.mp he' with heq | hmem
            · refine Relation.EqvGen.rel u v (Or.inl ((heqv1 u v).mpr
                (Or.inr (Or.inl ⟨?_, ?_⟩))))
              · rw [h1, heq]
              · rw [h2, heq]
            · exact Relation.EqvGen.rel u v (Or.inr ⟨e', hmem, h1, h2⟩)

/-- C6: DetectCycle returns true exactly when some edge connects two
endpoints already joined by the equivalence closure of the earlier edges, and
on the two demo graphs it returns true and false respectively. -/
theorem detectCycle_spec (n : Nat) (edges : List Edge)
    (hE : ∀ e ∈ edges, e.From < n ∧ e.To < n) :
    (DetectCycle n edges = true ↔
      ∃ i, ∃ h : i < edges.length,
        Relation.EqvGen (EdgeRel (edges.take i))
          (edges.get ⟨i, h⟩).From (edges.get ⟨i, h⟩).To) ∧
    DetectCycle 3 [⟨0, 1, 1⟩, ⟨1, 2, 1⟩, ⟨2, 0, 1⟩] = true ∧
    DetectCycle 4 [⟨0, 1, 1⟩, ⟨1, 2, 1⟩, ⟨2, 3, 1⟩] = false := by
  refine ⟨?_, by decide, by decide⟩
  unfold DetectCycle
  rw [DetectCycleLoop_iff n edges (NewUnionFind n) ReachableUF.init hE]
  constructor
  · rintro ⟨i, hi, hEq⟩
    refine ⟨i, hi, ?_⟩
    refine eqvGen_bind ?_ _ _ hEq
    intro u v huv
    rcases huv with huv | huv
    · rw [NewUnionFind_rootOf, NewUnionFind_rootOf] at huv
      exact huv ▸ Relation.EqvGen.refl u
    · exact Relation.EqvGen.rel u v huv
  · rintro ⟨i, hi, hEq⟩
    refine ⟨i, hi, ?_⟩
    exact eqvGen_bind (fun u v huv => Relation.EqvGen.rel u v (Or.inr huv)) _ _ hEq

theorem detectCycle_spec_witness :
    (∀ e ∈ ([⟨0, 1, 1⟩, ⟨1, 2, 1⟩, ⟨2, 0, 1⟩] : List Edge), e.From < 3 ∧ e.To < 3) ∧
    ((DetectCycle 3 [⟨0, 1, 1⟩, ⟨1, 2, 1⟩, ⟨2, 0, 1⟩] = true ↔
      ∃ i, ∃ h : i < ([⟨0, 1, 1⟩, ⟨1, 2, 1⟩, ⟨2, 0, 1⟩] : List Edge).length,
        Relation.EqvGen
          (EdgeRel (([⟨0, 1, 1⟩, ⟨1, 2, 1⟩, ⟨2, 0, 1⟩] : List Edge).take i))
          (([⟨0, 1, 1⟩, ⟨1, 2, 1⟩, ⟨2, 0, 1⟩] : List Edge).get ⟨i, h⟩).From
          (([⟨0, 1, 1⟩, ⟨1, 2, 1⟩, ⟨2, 0, 1⟩] : List Edge).get ⟨i, h⟩).To) ∧
    DetectCycle 3 [⟨0, 1, 1⟩, ⟨1, 2, 1⟩, ⟨2, 0, 1⟩] = true ∧
    DetectCycle 4 [⟨0, 1, 1⟩, ⟨1, 2, 1⟩, ⟨2, 3, 1⟩] = false) :=
  ⟨by decide, detectCycle_spec 3 [⟨0, 1, 1⟩, ⟨1, 2, 1⟩, ⟨2, 0, 1⟩] (by decide)⟩

/-! Kruskal's minimum spanning tree. -/

/-- Modelled from the spec: the source sorts with Go's library call
`sort.Slice` using the comparator `edges[i].Weight < edges[j].Weight`; the
implementation behind `sort.Slice` belongs to the Go standard library, not to
this repository.  The spec prescribes "sort edges ascending by weight (ties
broken by input order — stable sort required)", so the sort is modelled here
as the stable ascending-by-weight insertion sort. -/
def sortEdgesByWeight (edges : List Edge) : List Edge :=
  List.insertionSort (fun a b => a.Weight ≤ b.Weight) edges

/-- Loop body of KruskalMST: for each edge in sorted order, if Union
succeeds append the edge and add its weight, stopping once n - 1 edges are
kept. -/
def KruskalLoop (uf : UnionFind) (mst : List Edge) (totalWeight : Int) (n : Nat) :
    List Edge → List Edge × Int
  | [] => (mst, totalWeight)
  | e :: rest =>
    let r := uf.Union e.From e.To
    if r.2 then
      let mst2 := mst ++ [e]
      let tw2 := totalWeight + e.Weight
      if mst2.length = n - 1 then (mst2, tw2)
      else KruskalLoop r.1 mst2 tw2 n rest
    else KruskalLoop r.1 mst totalWeight n rest

/-- KruskalMST finds a minimum spanning tree: the first component is the Go
return value (chosen edges, total weight); the second component is the final
contents of the caller's edges slice, which `sort.Slice` has permuted in
place, so the caller observes the sorted sequence after the call returns. -/
def KruskalMST (n : Nat) (edges : List Edge) : (List Edge × Int) × List Edge :=
  let sorted := sortEdgesByWeight edges
  (KruskalLoop (NewUnionFind n) [] 0 n sorted, sorted)

/-- Demo edge list of the repository (9 vertices, 14 weighted edges). -/
def kruskalDemoEdges : List Edge :=
  [⟨0, 1, 4⟩, ⟨0, 7, 8⟩, ⟨1, 2, 8⟩, ⟨1, 7, 11⟩,
   ⟨2, 3, 7⟩, ⟨2, 8, 2⟩, ⟨2, 5, 4⟩, ⟨3, 4, 9⟩,
   ⟨3, 5, 14⟩, ⟨4, 5, 10⟩, ⟨5, 6, 2⟩, ⟨6, 7, 1⟩,
   ⟨6, 8, 6⟩, ⟨7, 8, 7⟩]

/-- C7: on the repository's 9-vertex demo graph, KruskalMST returns exactly 8
edges of total weight 37. -/
theorem kruskal_demo_result :
    (KruskalMST 9 kruskalDemoEdges).1.1.length = 8 ∧
    (KruskalMST 9 kruskalDemoEdges).1.2 = 37 := by
  constructor
  · rfl
  · rfl

instance edgeWeightLE_total : IsTotal Edge (fun a b : Edge => a.Weight ≤ b.Weight) :=
  ⟨fun a b => Int.le_total a.Weight b.Weight⟩

instance edgeWeightLE_trans : IsTrans Edge (fun a b : Edge => a.Weight ≤ b.Weight) :=
  ⟨fun _ _ _ h1 h2 => le_trans h1 h2⟩

/-- C10: the caller's edges slice after KruskalMST is the sorted permutation
of the input (the in-place effect of sort.Slice), ascending by weight, and on
the demo input it differs from the original order. -/
theorem kruskal_sorts_in_place (n : Nat) (edges : List Edge) :
    (KruskalMST n edges).2 = sortEdgesByWeight edges ∧
    List.Sorted (fun a b : Edge => a.Weight ≤ b.Weight) (KruskalMST n edges).2 ∧
    ((KruskalMST n edges).2).Perm edges ∧
    (KruskalMST 9 kruskalDemoEdges).2 ≠ kruskalDemoEdges := by
  refine ⟨rfl, ?_, ?_, by decide⟩
  · exact List.sorted_insertionSort (fun a b : Edge => a.Weight ≤ b.Weight) edges
  · exact List.perm_insertionSort (fun a b : Edge => a.Weight ≤ b.Weight) edges

/-! Out-of-range indices. -/

/-- Fallible embedding of Find for an arbitrary Go int index: the slice read
`uf.parent[x]` panics with a runtime index-out-of-range error for x outside
the slice, surfaced here as `Except.error`; for in-range x the behavior is
the pure `Find`. -/
def UnionFind.FindE (uf : UnionFind) (x : Int) : Except String (UnionFind × Nat) :=
  if 0 ≤ x ∧ x.toNat < uf.parent.length then Except.ok (uf.Find x.toNat)
  else Except.error "runtime error: index out of range"

/-- Fallible embedding of Union: `Find(x)` panics first when x is out of
range, then `Find(y)` when y is; otherwise the pure `Union` runs. -/
def UnionFind.UnionE (uf : UnionFind) (x y : Int) : Except String (UnionFind × Bool) :=
  if 0 ≤ x ∧ x.toNat < uf.parent.length then
    if 0 ≤ y ∧ y.toNat < uf.parent.length then Except.ok (uf.Union x.toNat y.toNat)
    else Except.error "runtime error: index out of range"
  else Except.error "runtime error: index out of range"

/-- Fallible embedding of Connected, propagating the panics of its two Find
calls. -/
def UnionFind.ConnectedE (uf : UnionFind) (x y : Int) : Except String (UnionFind × Bool) :=
  if 0 ≤ x ∧ x.toNat < uf.parent.length then
    if 0 ≤ y ∧ y.toNat < uf.parent.length then Except.ok (uf.Connected x.toNat y.toNat)
    else Except.error "runtime error: index out of range"
  else Except.error "runtime error: index out of range"

/-- C9: every call with a first index outside the valid range fails
immediately with the out-of-range error and never returns a normal result. -/
theorem invalid_index_errors (uf : UnionFind) (x y : Int)
    (hx : x < 0 ∨ (uf.parent.length : Int) ≤ x) :
    uf.FindE x = Except.error "runtime error: index out of range" ∧
    uf.UnionE x y = Except.error "runtime error: index out of range" ∧
    uf.ConnectedE x y = Except.error "runtime error: index out of range" := by
  have hcond : ¬ (0 ≤ x ∧ x.toNat < uf.parent.length) := by
    rintro ⟨h1, h2⟩
    rcases hx with h | h
    · omega
    · omega
  unfold UnionFind.FindE UnionFind.UnionE UnionFind.ConnectedE
  rw [if_neg hcond, if_neg hcond, if_neg hcond]
  exact ⟨rfl, rfl, rfl⟩

theorem invalid_index_errors_witness :
    ((5 : Int) < 0 ∨ ((NewUnionFind 2).parent.length : Int) ≤ 5) ∧
    ((NewUnionFind 2).FindE 5 = Except.error "runtime error: index out of range" ∧
     (NewUnionFind 2).UnionE 5 0 = Except.error "runtime error: index out of range" ∧
     (NewUnionFind 2).ConnectedE 5 0 = Except.error "runtime error: index out of range") :=
  ⟨by decide, invalid_index_errors (NewUnionFind 2) 5 0 (by decide)⟩

/-- Helper enumerating the two possible orders of a tie of equal-weight
edges. -/
def kruskalTiePair (b : Bool) (e1 e2 : Edge) : List Edge :=
  if b then [e1, e2] else [e2, e1]

/-- The ascending-by-weight arrangements of the demo edge list: the weights
1, 6, 9, 10, 11, 14 occur once and the weights 2, 4, 7, 8 twice, so every
ascending-by-weight permutation of the demo edges is one of these 16 lists. -/
def kruskalArrangement (b2 b4 b7 b8 : Bool) : List Edge :=
  [⟨6, 7, 1⟩] ++ kruskalTiePair b2 ⟨2, 8, 2⟩ ⟨5, 6, 2⟩
    ++ kruskalTiePair b4 ⟨0, 1, 4⟩ ⟨2, 5, 4⟩ ++ [⟨6, 8, 6⟩]
    ++ kruskalTiePair b7 ⟨2, 3, 7⟩ ⟨7, 8, 7⟩ ++ kruskalTiePair b8 ⟨0, 7, 8⟩ ⟨1, 2, 8⟩
    ++ [⟨3, 4, 9⟩, ⟨4, 5, 10⟩, ⟨1, 7, 11⟩, ⟨3, 5, 14⟩]

/-- The demo Kruskal result (8 edges, weight 37) does not depend on the order
in which the sort breaks ties between equal-weight edges: the loop yields the
same edge count and total weight on all 16 ascending-by-weight arrangements. -/
theorem kruskal_tie_order_robust :
    ∀ b2 b4 b7 b8 : Bool,
      (KruskalLoop (NewUnionFind 9) [] 0 9 (kruskalArrangement b2 b4 b7 b8)).1.length = 8 ∧
      (KruskalLoop (NewUnionFind 9) [] 0 9 (kruskalArrangement b2 b4 b7 b8)).2 = 37 := by
  decide
